import Mathlib

/-!
Verification of the gitscrape core pipeline (src/main.py).

The embedding models the three core functions of the source file:
`parse_github_url`, `get_repo_structure`, and `get_selected_contents`.
All character-level behaviour of the Python string primitives used by the
source (`str.strip`, `str.strip('/')`, `str.split('/')`, `str.replace`,
`str.startswith`, `str.endswith`) is reproduced over `List Char`, with
`String` only at the API boundary.  External collaborators (the GitHub
API client) are passed in as explicit values: a directory listing is an
`Except` of raw entries, a per-file fetch-and-decode is a function
`String → Except String String`.
-/

/-- Python `str.strip()` whitespace set, i.e. the characters for which
`str.isspace()` is true in CPython: U+0009-U+000D, U+001C-U+001F, space,
U+0085 (NEL), U+00A0 (NBSP), U+1680, U+2000-U+200A, U+2028, U+2029,
U+202F, U+205F and U+3000. -/
def pyIsSpace (c : Char) : Bool :=
  let n := c.toNat
  (0x09 ≤ n && n ≤ 0x0D) || (0x1C ≤ n && n ≤ 0x1F) ||
  n == 0x20 || n == 0x85 || n == 0xA0 || n == 0x1680 ||
  (0x2000 ≤ n && n ≤ 0x200A) || n == 0x2028 || n == 0x2029 ||
  n == 0x202F || n == 0x205F || n == 0x3000

/-- Drop the trailing run of characters satisfying `p`. -/
def trimRight (p : Char → Bool) (l : List Char) : List Char :=
  (l.reverse.dropWhile p).reverse

/-- Python `str.strip(chars)`: drop the leading and trailing runs of
characters satisfying `p`. -/
def pyStripBy (p : Char → Bool) (l : List Char) : List Char :=
  trimRight p (l.dropWhile p)

/-- Python `url.strip()`. -/
def pyStrip (l : List Char) : List Char := pyStripBy pyIsSpace l

/-- Python `url.strip('/')`. -/
def pyStripSlash (l : List Char) : List Char := pyStripBy (fun c => c = '/') l

/-- Python `str.split(sep)` for a one-character separator: keeps empty
segments, and splitting the empty string gives one empty segment. -/
def pySplit (sep : Char) : List Char → List (List Char)
  | [] => [[]]
  | c :: rest =>
    match pySplit sep rest with
    | [] => [[c]]
    | h :: t => if c = sep then [] :: h :: t else (c :: h) :: t

/-- Python `str.replace(pat, '')`: remove every non-overlapping occurrence
of `pat`, scanning left to right.  The fuel argument bounds the recursion
depth; each step consumes at least one character, so fuel equal to the
length of the string is always sufficient. -/
def pyRemoveAllFuel (pat : List Char) : Nat → List Char → List Char
  | _, [] => []
  | 0, s => s
  | fuel + 1, c :: rest =>
    if pat.isPrefixOf (c :: rest) && !pat.isEmpty then
      pyRemoveAllFuel pat fuel (rest.drop (pat.length - 1))
    else
      c :: pyRemoveAllFuel pat fuel rest

/-- Python `s.replace(pat, '')`. -/
def pyRemoveAll (pat s : List Char) : List Char := pyRemoveAllFuel pat s.length s

/-- The literal `'https://github.com/'` from line 39 of the source. -/
def httpsPre : List Char := "https://github.com/".toList

/-- The literal `'http://github.com/'` from line 39 of the source. -/
def httpPre : List Char := "http://github.com/".toList

/-- Body of parse_github_url, src/main.py lines 30-57, line by line:
strip whitespace; reject empty input; if the string starts with
`https://github.com/` or `http://github.com/`, remove all occurrences of
both prefixes (Python `str.replace` replaces everywhere); strip leading
and trailing slashes; split on `/`; reject fewer than two parts or an
empty owner or repo part; the surrounding `except` re-raises every error
as `ValueError('Invalid GitHub URL: ...')`. -/
def parseCore (url : String) : Except String (String × String) :=
  let url1 := pyStrip url.toList
  if url1.isEmpty then .error "Please enter a GitHub URL"
  else
    let url2 :=
      if httpsPre.isPrefixOf url1 || httpPre.isPrefixOf url1 then
        pyRemoveAll httpPre (pyRemoveAll httpsPre url1)
      else url1
    match pySplit '/' (pyStripSlash url2) with
    | owner :: repo :: _ =>
      if owner.isEmpty || repo.isEmpty then
        .error "Both username and repository name are required"
      else .ok (String.mk owner, String.mk repo)
    | _ => .error "Invalid GitHub URL format. Expected format: username/repository"

/-- parse_github_url itself: the body wrapped in the `try/except` of
src/main.py lines 56-57, which turns every raised message `m` into
`ValueError('Invalid GitHub URL: ' + m)`. -/
def parse_github_url (url : String) : Except String (String × String) :=
  Except.mapError (fun m => "Invalid GitHub URL: " ++ m) (parseCore url)


/-- A raw entry of the external collaborator's single-level directory
listing (`repo.get_contents(path)`): name, repo-relative path, and type
(`"dir"` or `"file"`). -/
structure RawEntry where
  name : String
  path : String
  type : String
deriving DecidableEq, Repr

/-- The dict `{"path": ..., "type": ..., "name": ...}` built by
`get_repo_structure`; `type` is `"directory"` or `"file"`. -/
structure Item where
  path : String
  type : String
  name : String
deriving DecidableEq, Repr

/-- The extension allow-list of src/main.py line 71. -/
def allowedExts : List String := [".md", ".py", ".js", ".tsx", ".ts", ".jsx", ".txt"]

/-- Python `name.endswith(('.md', '.py', '.js', '.tsx', '.ts', '.jsx', '.txt'))`:
a case-sensitive suffix match against any entry of the allow-list. -/
def hasAllowedExt (name : String) : Bool :=
  allowedExts.any (fun e => e.toList.isSuffixOf name.toList)

/-- The filtering loop of src/main.py lines 64-76: a directory entry is
kept unconditionally; any other entry is kept only when its name passes
the extension filter. -/
def toItems : List RawEntry → List Item
  | [] => []
  | c :: rest =>
    if c.type = "dir" then
      { path := c.path, type := "directory", name := c.name } :: toItems rest
    else if hasAllowedExt c.name then
      { path := c.path, type := "file", name := c.name } :: toItems rest
    else toItems rest

/-- Lexicographic comparison of character lists by code point, matching
Python string comparison. -/
def charListLe : List Char → List Char → Bool
  | [], _ => true
  | _ :: _, [] => false
  | a :: as, b :: bs => if a < b then true else if b < a then false else charListLe as bs

/-- First component of the Python sort key `(x['type'] == 'file', x['path'])`. -/
def fileFlag (x : Item) : Bool := x.type = "file"

/-- The sort key of src/main.py line 80. -/
def itemKey (x : Item) : Bool × String := (fileFlag x, x.path)

/-- Lexicographic order on the Python sort key `(x['type'] == 'file', x['path'])`
with `False < True`. -/
def keyLe (a b : Item) : Bool :=
  if fileFlag a = fileFlag b then charListLe a.path.toList b.path.toList
  else fileFlag b

/-- keyLe as a relation, for the sort. -/
def ItemLe (a b : Item) : Prop := keyLe a b = true

instance : DecidableRel ItemLe := fun a b => inferInstanceAs (Decidable (keyLe a b = true))

/-- Python `sorted(items, key=lambda x: (x['type'] == 'file', x['path']))`:
a stable sort by the key order. -/
def sortItems (l : List Item) : List Item := List.insertionSort ItemLe l

/-- get_repo_structure from src/main.py lines 59-80: the external
listing result is passed in explicitly; on failure the function reports
the error (`st.error`, modelled as the second component) and the item
list stays empty; either way the items are returned stably sorted by
`(type == 'file', path)`. -/
def get_repo_structure (path : String) (contents : Except String (List RawEntry)) :
    List Item × List String :=
  match contents with
  | .error e => (sortItems [], ["Error accessing path " ++ path ++ ": " ++ e])
  | .ok cs => (sortItems (toItems cs), [])



/-- The block appended for a successfully fetched file
(`f"### File: {file_path}\n\n{decoded_content}\n\n"`, src/main.py line 89). -/
def fileBlock (p t : String) : String := "### File: " ++ p ++ "\n\n" ++ t ++ "\n\n"

/-- The warning emitted for a failed fetch or decode
(`f"Could not decode {file_path}: {str(e)}"`, src/main.py line 91). -/
def decodeWarning (p e : String) : String := "Could not decode " ++ p ++ ": " ++ e

/-- The loop of `get_selected_contents` (src/main.py lines 84-91): walk the
selected paths in order; a successful fetch-and-decode appends a block, a
failure appends a warning (`st.warning`) and the loop continues. -/
def collectContents (fetch : String → Except String String) :
    List String → List String × List String
  | [] => ([], [])
  | p :: rest =>
    match fetch p with
    | .ok txt =>
      let r := collectContents fetch rest
      (fileBlock p txt :: r.1, r.2)
    | .error e =>
      let r := collectContents fetch rest
      (r.1, decodeWarning p e :: r.2)

/-- get_selected_contents from src/main.py lines 82-93: the external
fetch-and-decode (`repo.get_contents` + base64 + UTF-8 decode) is passed
in as `fetch`; the result is `'\n'.join(contents)` together with the
warnings emitted along the way. -/
def get_selected_contents (fetch : String → Except String String)
    (selected_files : List String) : String × List String :=
  let r := collectContents fetch selected_files
  (String.intercalate "\n" r.1, r.2)

/-- Modelled from the spec's words for claim C2: drop the host part of a
URL, i.e. everything up to and including the first `/`. -/
def specDropHost (l : List Char) : List Char :=
  (l.dropWhile (fun c => c ≠ '/')).drop 1

/-- Modelled from the spec's words for claim C2: strip an optional
`https://host/` or `http://host/` prefix, for an arbitrary host. -/
def specStripSchemeHost (l : List Char) : List Char :=
  if "https://".toList.isPrefixOf l then specDropHost (l.drop 8)
  else if "http://".toList.isPrefixOf l then specDropHost (l.drop 7)
  else l

/-- The failure predicate exactly as claim C2 states it: the input is
empty or whitespace-only after trimming, or, after stripping an optional
scheme-plus-host prefix and leading/trailing slashes, splitting on `/`
yields fewer than two non-empty segments. -/
def specParseRejects (url : String) : Bool :=
  let t := pyStrip url.toList
  t.isEmpty ||
    decide (((pySplit '/' (pyStripSlash (specStripSchemeHost t))).filter
      (fun seg => !seg.isEmpty)).length < 2)

/-- The failure predicate that actually matches the code: empty after
trimming, or, after stripping the optional `https://github.com/` /
`http://github.com/` prefix and leading/trailing slashes, splitting on
`/` yields fewer than two segments or an empty first or second segment. -/
def parseRejectsAmended (url : String) : Bool :=
  let t := pyStrip url.toList
  let u :=
    if httpsPre.isPrefixOf t || httpPre.isPrefixOf t then
      pyRemoveAll httpPre (pyRemoveAll httpsPre t)
    else t
  let parts := pySplit '/' (pyStripSlash u)
  t.isEmpty || decide (parts.length < 2) ||
    (parts.headD []).isEmpty || ((parts.drop 1).headD []).isEmpty

lemma mk_nil_eq_empty : String.mk [] = "" := rfl

lemma parse_eq_ok_iff (s : String) (p : String × String) :
    parse_github_url s = .ok p ↔ parseCore s = .ok p := by
  cases h : parseCore s <;> simp [parse_github_url, Except.mapError, h]

lemma parse_isOk_eq (s : String) :
    (parse_github_url s).isOk = (parseCore s).isOk := by
  cases h : parseCore s <;>
    simp [parse_github_url, Except.mapError, h, Except.isOk, Except.toBool]

/-- C1: the three accepted input shapes do not all yield the same pair.
The URL with scheme and the bare `owner/repo` shape both give
`("acme", "widgets")`, but the bare `host/owner/repo` shape is not
stripped by the code (only URLs starting with a scheme are), so
`github.com/acme/widgets` parses to `("github.com", "acme")` — contrary
to the claim and to the format list displayed by the app itself. -/
theorem c1_three_shapes_not_equivalent :
    parse_github_url "https://github.com/acme/widgets" = .ok ("acme", "widgets") ∧
    parse_github_url "acme/widgets" = .ok ("acme", "widgets") ∧
    parse_github_url "github.com/acme/widgets" = .ok ("github.com", "acme") ∧
    (("github.com", "acme") : String × String) ≠ ("acme", "widgets") :=
  ⟨rfl, rfl, rfl, by decide⟩

/-- C6: when the external listing call fails for a path, the failure is
surfaced to the caller (the reported diagnostic names the path and the
reason) and the returned entry sequence is empty, so a multi-path
traversal can continue over other paths. -/
theorem c6_listing_failure_surfaced (path e : String) :
    get_repo_structure path (.error e) =
      ([], ["Error accessing path " ++ path ++ ": " ++ e]) := rfl

/-- C10: on every input on which parse succeeds, both components of the
returned (owner, repo) pair are non-empty. -/
theorem c10_parsed_components_nonempty (s o r : String)
    (h : parse_github_url s = .ok (o, r)) : o ≠ "" ∧ r ≠ "" := by
  rw [parse_eq_ok_iff] at h
  simp only [parseCore] at h
  split at h
  · exact absurd h (by simp)
  · split at h
    · split at h
      · exact absurd h (by simp)
      · rename_i owner repo rest heq hcond
        simp only [Bool.or_eq_true, not_or, List.isEmpty_iff] at hcond
        injection h with h'
        simp only [Prod.mk.injEq] at h'
        obtain ⟨ho, hr⟩ := h'
        subst ho; subst hr
        constructor
        · simp only [← mk_nil_eq_empty, ne_eq, String.ext_iff]
          exact hcond.1
        · simp only [← mk_nil_eq_empty, ne_eq, String.ext_iff]
          exact hcond.2
    · exact absurd h (by simp)

/-- C10 witness: parsing `acme/widgets` succeeds, and both returned
components are non-empty. -/
theorem c10_witness : ("acme" : String) ≠ "" ∧ ("widgets" : String) ≠ "" :=
  c10_parsed_components_nonempty "acme/widgets" "acme" "widgets" rfl

/-- C2 counterexample: on input `a//b` the claim's failure predicate does
not hold (after trimming there is no scheme prefix to strip, no leading
or trailing slashes, and splitting on `/` yields the two non-empty
segments `a` and `b`), so the claim says this input returns a pair; the
code nevertheless fails, because the second raw split part is empty. -/
theorem c2_counterexample :
    specParseRejects "a//b" = false ∧ (parse_github_url "a//b").isOk = false :=
  ⟨rfl, rfl⟩

/-- C2 (amended): parse fails exactly when the input is empty or
whitespace-only after trimming, or when, after stripping the optional
`https://github.com/` or `http://github.com/` prefix and leading/trailing
slashes, splitting on `/` yields fewer than two segments or an empty
first or second raw segment (empty segments are not discarded before the
check); in particular parse("") and parse("justonepart") fail. -/
theorem c2_failure_characterization :
    (∀ s : String, (parse_github_url s).isOk = false ↔ parseRejectsAmended s = true) ∧
    (parse_github_url "").isOk = false ∧ (parse_github_url "justonepart").isOk = false := by
  refine ⟨?_, rfl, rfl⟩
  intro s
  rw [parse_isOk_eq]
  simp only [parseCore, parseRejectsAmended]
  generalize pyStrip s.toList = t
  cases ht : t.isEmpty with
  | true => simp [Except.isOk, Except.toBool]
  | false =>
    simp only [Bool.false_eq_true, if_false, Bool.false_or]
    generalize pySplit '/' (pyStripSlash (if (httpsPre.isPrefixOf t ||
      httpPre.isPrefixOf t) = true then
        pyRemoveAll httpPre (pyRemoveAll httpsPre t)
      else t)) = ps
    cases ps with
    | nil => simp [Except.isOk, Except.toBool]
    | cons a as =>
      cases as with
      | nil => simp [Except.isOk, Except.toBool]
      | cons b bs =>
        have hlen : ¬((a :: b :: bs).length < 2) := by
          simp only [List.length_cons]
          omega
        cases hab : (a.isEmpty || b.isEmpty) with
        | true =>
          rcases Bool.or_eq_true_iff.mp hab with h1 | h1 <;>
            simp [h1, Except.isOk, Except.toBool]
        | false =>
          obtain ⟨h1, h2⟩ := Bool.or_eq_false_iff.mp hab
          simp [h1, h2, hlen, Except.isOk, Except.toBool]

lemma collectContents_eq (fetch : String → Except String String) (l : List String) :
    collectContents fetch l =
      (l.filterMap (fun p => (fetch p).toOption.map (fileBlock p)),
       l.filterMap (fun p => match fetch p with
         | .error e => some (decodeWarning p e)
         | .ok _ => none)) := by
  induction l with
  | nil => rfl
  | cons p rest ih =>
    cases hf : fetch p <;>
      simp [collectContents, hf, ih, List.filterMap_cons, Except.toOption]

/-- C7: aggregation is best-effort and processes the paths in order: the
returned document is the newline-join of one labeled block per
successfully fetched path, in input order, and exactly one warning naming
the path and the failure reason is emitted per failed path, in input
order; a failure never aborts the batch.  In particular, aggregating
`["a.md", "b.md"]` where `a.md` fails and `b.md` succeeds yields a
document with only `b.md`'s block and a single warning for `a.md`. -/
theorem c7_best_effort_aggregation :
    (∀ (fetch : String → Except String String) (l : List String),
      get_selected_contents fetch l =
        (String.intercalate "\n" (l.filterMap (fun p => (fetch p).toOption.map (fileBlock p))),
         l.filterMap (fun p => match fetch p with
           | .error e => some (decodeWarning p e)
           | .ok _ => none))) ∧
    get_selected_contents
        (fun p => if p = "b.md" then .ok "hello" else .error "bad base64")
        ["a.md", "b.md"] =
      ("### File: b.md\n\nhello\n\n", ["Could not decode a.md: bad base64"]) := by
  constructor
  · intro fetch l
    simp [get_selected_contents, collectContents_eq]
  · rfl

/-- C8: aggregating the empty path sequence returns an empty document and
no warnings; and if the fetch of every supplied path fails, the returned
document is likewise empty. -/
theorem c8_all_failures_empty_document :
    (∀ fetch : String → Except String String, get_selected_contents fetch [] = ("", [])) ∧
    (∀ (fetch : String → Except String String) (l : List String),
      (∀ p ∈ l, ∃ e, fetch p = .error e) → (get_selected_contents fetch l).1 = "") := by
  constructor
  · intro fetch
    rfl
  · intro fetch l h
    have hnil : l.filterMap (fun p => (fetch p).toOption.map (fileBlock p)) = [] := by
      rw [List.filterMap_eq_nil_iff]
      intro p hp
      obtain ⟨e, he⟩ := h p hp
      simp [he, Except.toOption]
    simp [get_selected_contents, collectContents_eq, hnil, String.intercalate]

/-- C8 witness: a batch of two paths that both fail yields the empty
document. -/
theorem c8_witness :
    (get_selected_contents (fun _ => .error "404") ["a.md", "b.md"]).1 = "" :=
  c8_all_failures_empty_document.2 (fun _ => .error "404") ["a.md", "b.md"]
    (fun _ _ => ⟨"404", rfl⟩)

/-- C9: aggregation is deterministic in the remote content — two calls
with the same path sequence against fetch results that agree on those
paths produce identical output — and order-preserving: the document is
the newline-join of the per-path blocks of the successful paths taken in
the insertion order of the input list, so re-ordering the input sequence
re-orders the blocks identically. -/
theorem c9_idempotent_order_preserving :
    (∀ (f g : String → Except String String) (l : List String),
      (∀ p ∈ l, f p = g p) →
        get_selected_contents f l = get_selected_contents g l) ∧
    (∀ (f : String → Except String String) (l : List String),
      (get_selected_contents f l).1 =
        String.intercalate "\n"
          (l.filterMap (fun p => (f p).toOption.map (fileBlock p)))) := by
  constructor
  · intro f g l h
    have hc : collectContents f l = collectContents g l := by
      induction l with
      | nil => rfl
      | cons p rest ih =>
        have hp : f p = g p := h p (List.mem_cons_self p rest)
        have ih' := ih (fun q hq => h q (List.mem_cons_of_mem p hq))
        simp [collectContents, hp, ih']
    simp [get_selected_contents, hc]
  · intro f l
    simp [get_selected_contents, collectContents_eq]

/-- C9 witness: two fetch functions that agree on the supplied paths give
identical aggregated output. -/
theorem c9_witness :
    get_selected_contents (fun _ => Except.ok "A") ["a.md"] =
      get_selected_contents (fun p => if p = "zz" then Except.error "x" else Except.ok "A")
        ["a.md"] :=
  c9_idempotent_order_preserving.1 (fun _ => Except.ok "A")
    (fun p => if p = "zz" then Except.error "x" else Except.ok "A") ["a.md"]
    (fun p hp => by
      have : p = "a.md" := by simpa using hp
      subst this
      rfl)

lemma charListLe_refl (l : List Char) : charListLe l l = true := by
  induction l with
  | nil => rfl
  | cons a as ih => simp [charListLe, ih]

lemma charListLe_total (x y : List Char) :
    charListLe x y = true ∨ charListLe y x = true := by
  induction x generalizing y with
  | nil => left; rfl
  | cons a as ih =>
    cases y with
    | nil => right; rfl
    | cons b bs =>
      rcases lt_trichotomy a b with h | h | h
      · left; simp [charListLe, h]
      · subst h
        rcases ih bs with h' | h'
        · left; simp [charListLe, h']
        · right; simp [charListLe, h']
      · right; simp [charListLe, h]

lemma charListLe_trans (x y z : List Char) (hxy : charListLe x y = true)
    (hyz : charListLe y z = true) : charListLe x z = true := by
  induction x generalizing y z with
  | nil => rfl
  | cons a as ih =>
    cases y with
    | nil => simp [charListLe] at hxy
    | cons b bs =>
      cases z with
      | nil => simp [charListLe] at hyz
      | cons c cs =>
        simp only [charListLe] at hxy hyz ⊢
        rcases lt_trichotomy a b with hab | hab | hab
        · rcases lt_trichotomy b c with hbc | hbc | hbc
          · simp [lt_trans hab hbc]
          · subst hbc; simp [hab]
          · rw [if_neg (asymm hbc), if_pos hbc] at hyz
            simp at hyz
        · subst hab
          have hxy' : charListLe as bs = true := by simpa [lt_irrefl] using hxy
          rcases lt_trichotomy a c with hac | hac | hac
          · simp [hac]
          · subst hac
            have hyz' : charListLe bs cs = true := by simpa [lt_irrefl] using hyz
            simpa [lt_irrefl] using ih bs cs hxy' hyz'
          · rw [if_neg (asymm hac), if_pos hac] at hyz
            simp at hyz
        · rw [if_neg (asymm hab), if_pos hab] at hxy
          simp at hxy

instance : IsTotal Item ItemLe := by
  constructor
  intro a b
  unfold ItemLe keyLe
  cases hfa : fileFlag a <;> cases hfb : fileFlag b <;> simp <;>
    exact charListLe_total _ _

instance : IsTrans Item ItemLe := by
  constructor
  intro a b c hab hbc
  unfold ItemLe keyLe at hab hbc ⊢
  cases hfa : fileFlag a <;> cases hfb : fileFlag b <;> cases hfc : fileFlag c <;>
    simp_all <;> exact charListLe_trans _ _ _ hab hbc

lemma itemLe_of_key_eq {a b : Item} (h : itemKey a = itemKey b) : ItemLe a b := by
  unfold itemKey at h
  obtain ⟨hf, hp⟩ := Prod.mk.injEq .. ▸ h
  unfold ItemLe keyLe
  simp [hf, hp, charListLe_refl]

lemma filter_orderedInsert_pos (p : Item → Bool) (a : Item) (l : List Item)
    (hpa : p a = true) (hp : ∀ b, ¬ ItemLe a b → p b = false) :
    (List.orderedInsert ItemLe a l).filter p = a :: l.filter p := by
  induction l with
  | nil => simp [List.orderedInsert, hpa]
  | cons b bs ih =>
    by_cases hab : ItemLe a b
    · simp [List.orderedInsert, hab, hpa]
    · simp [List.orderedInsert, hab, List.filter_cons, hp b hab, ih]

lemma filter_orderedInsert_neg (p : Item → Bool) (a : Item) (l : List Item)
    (hpa : p a = false) :
    (List.orderedInsert ItemLe a l).filter p = l.filter p := by
  rw [List.orderedInsert_eq_take_drop, List.filter_append, List.filter_cons, hpa]
  simp only [Bool.false_eq_true, if_false]
  rw [← List.filter_append, List.takeWhile_append_dropWhile]

lemma sortItems_filter_key (l : List Item) (k : Bool × String) :
    (sortItems l).filter (fun x => decide (itemKey x = k)) =
      l.filter (fun x => decide (itemKey x = k)) := by
  unfold sortItems
  induction l with
  | nil => rfl
  | cons a as ih =>
    show (List.orderedInsert ItemLe a (List.insertionSort ItemLe as)).filter _ = _
    by_cases hk : itemKey a = k
    · rw [filter_orderedInsert_pos _ a _ (by simp [hk]) ?side, ih,
        List.filter_cons, if_pos (by simp [hk])]
      case side =>
        intro b hb
        simp only [decide_eq_false_iff_not]
        intro hbk
        exact hb (itemLe_of_key_eq (hk.trans hbk.symm))
    · rw [filter_orderedInsert_neg _ a _ (by simp [hk]), ih,
        List.filter_cons, if_neg (by simp [hk])]

lemma dir_mem_toItems {e : RawEntry} {L : List RawEntry} (he : e ∈ L)
    (ht : e.type = "dir") :
    ({ path := e.path, type := "directory", name := e.name } : Item) ∈ toItems L := by
  induction L with
  | nil => cases he
  | cons c cs ih =>
    rcases List.mem_cons.mp he with rfl | hmem
    · simp [toItems, ht]
    · by_cases h1 : c.type = "dir"
      · simp only [toItems, h1, if_true]
        exact List.mem_cons_of_mem _ (ih hmem)
      · by_cases h2 : hasAllowedExt c.name
        · simp only [toItems, h1, h2, if_true, if_false]
          exact List.mem_cons_of_mem _ (ih hmem)
        · simpa only [toItems, h1, h2, if_false] using ih hmem

lemma file_mem_toItems {e : RawEntry} {L : List RawEntry} (he : e ∈ L)
    (ht : ¬ e.type = "dir") (hx : hasAllowedExt e.name = true) :
    ({ path := e.path, type := "file", name := e.name } : Item) ∈ toItems L := by
  induction L with
  | nil => cases he
  | cons c cs ih =>
    rcases List.mem_cons.mp he with rfl | hmem
    · simp [toItems, ht, hx]
    · by_cases h1 : c.type = "dir"
      · simp only [toItems, h1, if_true]
        exact List.mem_cons_of_mem _ (ih hmem)
      · by_cases h2 : hasAllowedExt c.name
        · simp only [toItems, h1, h2, if_true, if_false]
          exact List.mem_cons_of_mem _ (ih hmem)
        · simpa only [toItems, h1, h2, if_false] using ih hmem

lemma file_not_mem_toItems {n p : String} {L : List RawEntry}
    (hx : hasAllowedExt n = false) :
    ({ path := p, type := "file", name := n } : Item) ∉ toItems L := by
  induction L with
  | nil => simp [toItems]
  | cons c cs ih =>
    by_cases h1 : c.type = "dir"
    · simp only [toItems, h1, if_true]
      intro hmem
      rcases List.mem_cons.mp hmem with heq | hmem'
      · have hft : ("file" : String) = "directory" := congrArg Item.type heq
        exact absurd hft (by decide)
      · exact ih hmem'
    · by_cases h2 : hasAllowedExt c.name
      · simp only [toItems, h1, h2, if_true, if_false]
        intro hmem
        rcases List.mem_cons.mp hmem with heq | hmem'
        · have hn : n = c.name := congrArg Item.name heq
          rw [hn] at hx
          exact absurd h2 (by rw [hx]; exact Bool.false_ne_true)
        · exact ih hmem'
      · simpa only [toItems, h1, h2, if_false] using ih

/-- C4: for every raw listing, every directory entry is emitted
unconditionally, and a file entry is emitted if and only if its name
passes the case-sensitive extension allow-list
{.md, .py, .js, .tsx, .ts, .jsx, .txt}; non-matching files are silently
dropped, not errors.  In particular the listing
[README.md (file), image.png (file), src (dir)] yields exactly the
directory `src` and the file `README.md`, with no reported error. -/
theorem c4_extension_filter :
    (∀ (path : String) (L : List RawEntry) (e : RawEntry), e ∈ L →
      (e.type = "dir" →
        ({ path := e.path, type := "directory", name := e.name } : Item) ∈
          (get_repo_structure path (.ok L)).1) ∧
      (e.type = "file" →
        (({ path := e.path, type := "file", name := e.name } : Item) ∈
            (get_repo_structure path (.ok L)).1 ↔ hasAllowedExt e.name = true))) ∧
    get_repo_structure "" (.ok [{ name := "README.md", path := "README.md", type := "file" },
        { name := "image.png", path := "image.png", type := "file" },
        { name := "src", path := "src", type := "dir" }]) =
      ([{ path := "src", type := "directory", name := "src" },
        { path := "README.md", type := "file", name := "README.md" }], []) := by
  refine ⟨?_, by decide⟩
  intro path L e he
  constructor
  · intro ht
    show _ ∈ sortItems (toItems L)
    unfold sortItems
    rw [List.mem_insertionSort]
    exact dir_mem_toItems he ht
  · intro ht
    have htd : ¬ e.type = "dir" := by rw [ht]; decide
    constructor
    · intro hmem
      by_contra hx
      have hx' : hasAllowedExt e.name = false := by
        cases h : hasAllowedExt e.name
        · rfl
        · exact absurd h hx
      have hmem' : ({ path := e.path, type := "file", name := e.name } : Item) ∈
          toItems L := by
        have hmem2 := hmem
        unfold get_repo_structure sortItems at hmem2
        rwa [List.mem_insertionSort] at hmem2
      exact file_not_mem_toItems hx' hmem'
    · intro hx
      show _ ∈ sortItems (toItems L)
      unfold sortItems
      rw [List.mem_insertionSort]
      exact file_mem_toItems he htd hx

/-- C4 witness: in the listing [README.md (file), image.png (file),
src (dir)], the file README.md passes the filter and appears in the
output. -/
theorem c4_witness :
    ({ path := "README.md", type := "file", name := "README.md" } : Item) ∈
      (get_repo_structure "" (.ok [{ name := "README.md", path := "README.md", type := "file" },
        { name := "image.png", path := "image.png", type := "file" },
        { name := "src", path := "src", type := "dir" }])).1 :=
  ((c4_extension_filter.1 ""
      [{ name := "README.md", path := "README.md", type := "file" },
       { name := "image.png", path := "image.png", type := "file" },
       { name := "src", path := "src", type := "dir" }]
      { name := "README.md", path := "README.md", type := "file" }
      (List.mem_cons_self _ _)).2 rfl).mpr rfl

/-- C5: the sequence returned by the lister is sorted by the key
(entry is a file, full path) — so every Directory entry precedes every
File entry, and within each group entries are in lexicographic order of
full path — it is a permutation of the filtered raw items, and the sort
is stable (taking the sub-sequence with any fixed key leaves the raw
order unchanged).  In particular files listed raw as b.py, a.py come out
as a.py before b.py. -/
theorem c5_output_ordering :
    (∀ (path : String) (L : List RawEntry),
      List.Sorted ItemLe (get_repo_structure path (.ok L)).1 ∧
      List.Pairwise (fun a b => fileFlag a = true → fileFlag b = true)
        (get_repo_structure path (.ok L)).1 ∧
      List.Perm (get_repo_structure path (.ok L)).1 (toItems L) ∧
      (∀ k : Bool × String,
        ((get_repo_structure path (.ok L)).1).filter (fun x => decide (itemKey x = k)) =
          (toItems L).filter (fun x => decide (itemKey x = k)))) ∧
    get_repo_structure "" (.ok [{ name := "b.py", path := "b.py", type := "file" },
        { name := "a.py", path := "a.py", type := "file" }]) =
      ([{ path := "a.py", type := "file", name := "a.py" },
        { path := "b.py", type := "file", name := "b.py" }], []) := by
  refine ⟨?_, by decide⟩
  intro path L
  refine ⟨List.sorted_insertionSort ItemLe (toItems L), ?_,
    List.perm_insertionSort ItemLe (toItems L), fun k => sortItems_filter_key (toItems L) k⟩
  refine List.Pairwise.imp ?_ (List.sorted_insertionSort ItemLe (toItems L))
  intro a b hab hfa
  unfold ItemLe keyLe at hab
  by_cases hf : fileFlag a = fileFlag b
  · rw [← hf, hfa]
  · rw [if_neg hf] at hab
    exact hab

lemma dropWhile_of_all (p : Char → Bool) (l : List Char) (h : ∀ c ∈ l, p c = false) :
    l.dropWhile p = l := by
  cases l with
  | nil => rfl
  | cons a as => simp [List.dropWhile_cons, h a (List.mem_cons_self a as)]

lemma trimRight_of_all (p : Char → Bool) (l : List Char) (h : ∀ c ∈ l, p c = false) :
    trimRight p l = l := by
  unfold trimRight
  rw [dropWhile_of_all p l.reverse (fun c hc => h c (List.mem_reverse.mp hc)),
    List.reverse_reverse]

lemma trimRight_append_cons (p : Char → Bool) (c : Char) (hc : p c = false)
    (xs ys : List Char) :
    trimRight p (xs ++ c :: ys) = xs ++ c :: trimRight p ys := by
  unfold trimRight
  rw [List.reverse_append, List.reverse_cons, List.append_assoc, List.dropWhile_append]
  by_cases h : (ys.reverse.dropWhile p).isEmpty
  · rw [if_pos h]
    have h2 : List.dropWhile p ([c] ++ xs.reverse) = c :: xs.reverse := by
      simp [List.dropWhile_cons, hc]
    have h3 : ys.reverse.dropWhile p = [] := List.isEmpty_iff.mp h
    rw [h2, h3]
    simp
  · rw [if_neg h]
    simp [List.reverse_append]

lemma trimRight_isPrefixOf (p : Char → Bool) (l : List Char) : trimRight p l <+: l := by
  unfold trimRight
  have h := List.dropWhile_suffix (l := l.reverse) p
  have h2 := List.reverse_prefix.mpr h
  rwa [List.reverse_reverse] at h2

lemma pySplit_ne_nil (sep : Char) (l : List Char) : pySplit sep l ≠ [] := by
  cases l with
  | nil => simp [pySplit]
  | cons c rest =>
    simp only [pySplit]
    cases h : pySplit sep rest with
    | nil => simp
    | cons a as => by_cases hc : c = sep <;> simp [hc]

lemma pySplit_append (sep : Char) (xs ys : List Char) (h : ∀ c ∈ xs, c ≠ sep) :
    pySplit sep (xs ++ sep :: ys) = xs :: pySplit sep ys := by
  induction xs with
  | nil =>
    show pySplit sep (sep :: ys) = [] :: pySplit sep ys
    simp only [pySplit]
    cases hy : pySplit sep ys with
    | nil => exact absurd hy (pySplit_ne_nil sep ys)
    | cons a as => simp
  | cons x xs' ih =>
    have hx : x ≠ sep := h x (List.mem_cons_self x xs')
    show pySplit sep (x :: (xs' ++ sep :: ys)) = (x :: xs') :: pySplit sep ys
    simp only [pySplit]
    rw [ih (fun c hc => h c (List.mem_cons_of_mem _ hc))]
    simp [hx]

lemma pySplit_no_sep (sep : Char) (xs : List Char) (h : ∀ c ∈ xs, c ≠ sep) :
    pySplit sep xs = [xs] := by
  induction xs with
  | nil => rfl
  | cons x xs' ih =>
    have hx : x ≠ sep := h x (List.mem_cons_self x xs')
    simp only [pySplit]
    rw [ih (fun c hc => h c (List.mem_cons_of_mem _ hc))]
    simp [hx]

lemma isPrefixOf_cons_cons (a b : Char) (as bs : List Char) :
    List.isPrefixOf (a :: as) (b :: bs) = (a == b && List.isPrefixOf as bs) := rfl

lemma noSchemePrefixMatch (pfx : List Char) :
    ∀ (o q : List Char) (b : Char) (z : List Char),
      (∀ c ∈ pfx, c ≠ '/') → (∀ c ∈ o, c ≠ '/') → b ≠ '/' →
      List.isPrefixOf (pfx ++ '/' :: '/' :: q) (o ++ '/' :: b :: z) = false := by
  induction pfx with
  | nil =>
    intro o q b z _ ho hb
    cases o with
    | nil =>
      show List.isPrefixOf ('/' :: '/' :: q) ('/' :: b :: z) = false
      rw [isPrefixOf_cons_cons, isPrefixOf_cons_cons]
      simp [show ('/' : Char) ≠ b from fun h => hb h.symm]
    | cons c o' =>
      show List.isPrefixOf ('/' :: '/' :: q) (c :: (o' ++ '/' :: b :: z)) = false
      rw [isPrefixOf_cons_cons]
      simp [show ('/' : Char) ≠ c from fun h => (ho c (List.mem_cons_self c o')) h.symm]
  | cons a p' ih =>
    intro o q b z hp ho hb
    have ha : a ≠ '/' := hp a (List.mem_cons_self a p')
    cases o with
    | nil =>
      show List.isPrefixOf (a :: (p' ++ '/' :: '/' :: q)) ('/' :: b :: z) = false
      rw [isPrefixOf_cons_cons]
      simp [ha]
    | cons c o' =>
      show List.isPrefixOf (a :: (p' ++ '/' :: '/' :: q))
        (c :: (o' ++ '/' :: b :: z)) = false
      rw [isPrefixOf_cons_cons,
        ih o' q b z (fun x hx => hp x (List.mem_cons_of_mem _ hx))
          (fun x hx => ho x (List.mem_cons_of_mem _ hx)) hb]
      simp

lemma pyStrip_shape (o r z : List Char) (ho : o ≠ [])
    (hos : ∀ c ∈ o, pyIsSpace c = false) (hrs : ∀ c ∈ r, pyIsSpace c = false)
    (hz : z = [] ∨ ∃ u, z = '/' :: u) :
    ∃ z₁, pyStrip (o ++ '/' :: r ++ z) = o ++ '/' :: r ++ z₁ ∧
      (z₁ = [] ∨ ∃ u, z₁ = '/' :: u) := by
  obtain ⟨oc, o', rfl⟩ : ∃ oc o', o = oc :: o' := by
    cases o with
    | nil => exact absurd rfl ho
    | cons a as => exact ⟨a, as, rfl⟩
  have hdw : ((oc :: o') ++ '/' :: r ++ z).dropWhile pyIsSpace =
      (oc :: o') ++ '/' :: r ++ z := by
    simp [List.dropWhile_cons, hos oc (List.mem_cons_self oc o')]
  unfold pyStrip pyStripBy
  rw [hdw]
  obtain rfl | ⟨u, rfl⟩ := hz
  · refine ⟨[], ?_, Or.inl rfl⟩
    rw [trimRight_of_all]
    intro c hc
    rw [List.append_nil] at hc
    rcases List.mem_append.mp hc with h | h
    · exact hos _ h
    · rcases List.mem_cons.mp h with rfl | h2
      · decide
      · exact hrs _ h2
  · refine ⟨'/' :: trimRight pyIsSpace u, ?_, Or.inr ⟨_, rfl⟩⟩
    have hsh : (oc :: o') ++ '/' :: r ++ '/' :: u = ((oc :: o') ++ '/' :: r) ++ '/' :: u := by
      simp
    rw [hsh, trimRight_append_cons pyIsSpace '/' (by decide)]

lemma pyStripSlash_shape (o r z : List Char) (ho : o ≠ []) (hr : r ≠ [])
    (hos : ∀ c ∈ o, c ≠ '/') (hrs : ∀ c ∈ r, c ≠ '/')
    (hz : z = [] ∨ ∃ u, z = '/' :: u) :
    ∃ z₂, pyStripSlash (o ++ '/' :: r ++ z) = o ++ '/' :: r ++ z₂ ∧
      (z₂ = [] ∨ ∃ u, z₂ = '/' :: u) := by
  obtain ⟨oc, o', rfl⟩ : ∃ oc o', o = oc :: o' := by
    cases o with
    | nil => exact absurd rfl ho
    | cons a as => exact ⟨a, as, rfl⟩
  rcases List.eq_nil_or_concat r with rfl | ⟨r₀, rl, rfl⟩
  · exact absurd rfl hr
  simp only [List.concat_eq_append] at hr hrs ⊢
  have hrl : rl ≠ '/' := hrs rl (by simp)
  have hdw : ((oc :: o') ++ '/' :: (r₀ ++ [rl]) ++ z).dropWhile (fun c => c = '/') =
      (oc :: o') ++ '/' :: (r₀ ++ [rl]) ++ z := by
    simp [List.dropWhile_cons, hos oc (List.mem_cons_self oc o')]
  unfold pyStripSlash pyStripBy
  rw [hdw]
  obtain rfl | ⟨u, rfl⟩ := hz
  · refine ⟨[], ?_, Or.inl rfl⟩
    have hsh : (oc :: o') ++ '/' :: (r₀ ++ [rl]) ++ [] =
        ((oc :: o') ++ '/' :: r₀) ++ rl :: [] := by
      simp
    rw [hsh, trimRight_append_cons _ _ (by simp [hrl])]
    simp [trimRight]
  · refine ⟨trimRight (fun c => c = '/') ('/' :: u), ?_, ?_⟩
    · have hsh : (oc :: o') ++ '/' :: (r₀ ++ [rl]) ++ '/' :: u =
          ((oc :: o') ++ '/' :: r₀) ++ rl :: ('/' :: u) := by
        simp
      rw [hsh, trimRight_append_cons _ _ (by simp [hrl])]
      simp
    · cases htr : trimRight (fun c => c = '/') ('/' :: u) with
      | nil => exact Or.inl rfl
      | cons c u' =>
        have hpre := trimRight_isPrefixOf (fun c => c = '/') ('/' :: u)
        rw [htr] at hpre
        obtain ⟨hc, -⟩ := List.cons_prefix_cons.mp hpre
        exact Or.inr ⟨u', by rw [hc]⟩

lemma pySplit_first_two (o r z : List Char)
    (hos : ∀ c ∈ o, c ≠ '/') (hrs : ∀ c ∈ r, c ≠ '/')
    (hz : z = [] ∨ ∃ u, z = '/' :: u) :
    ∃ tail, pySplit '/' (o ++ '/' :: r ++ z) = o :: r :: tail := by
  obtain rfl | ⟨u, rfl⟩ := hz
  · rw [List.append_nil, pySplit_append '/' o r hos, pySplit_no_sep '/' r hrs]
    exact ⟨[], rfl⟩
  · have hsh : o ++ '/' :: r ++ '/' :: u = o ++ '/' :: (r ++ '/' :: u) := by simp
    rw [hsh, pySplit_append '/' o _ hos, pySplit_append '/' r u hrs]
    exact ⟨_, rfl⟩

lemma parseCore_segments (o r w : List Char) (ho : o ≠ []) (hr : r ≠ [])
    (hoc : ∀ c ∈ o, c ≠ '/' ∧ pyIsSpace c = false)
    (hrc : ∀ c ∈ r, c ≠ '/' ∧ pyIsSpace c = false)
    (hw : w = [] ∨ ∃ v, w = '/' :: v) :
    parseCore (String.mk (o ++ '/' :: r ++ w)) = .ok (String.mk o, String.mk r) := by
  obtain ⟨z₁, hs, hz₁⟩ := pyStrip_shape o r w ho (fun c hc => (hoc c hc).2)
    (fun c hc => (hrc c hc).2) hw
  obtain ⟨z₂, hss, hz₂⟩ := pyStripSlash_shape o r z₁ ho hr (fun c hc => (hoc c hc).1)
    (fun c hc => (hrc c hc).1) hz₁
  obtain ⟨tail, hsp⟩ := pySplit_first_two o r z₂ (fun c hc => (hoc c hc).1)
    (fun c hc => (hrc c hc).1) hz₂
  obtain ⟨b, r', rfl⟩ : ∃ b r', r = b :: r' := by
    cases r with
    | nil => exact absurd rfl hr
    | cons a as => exact ⟨a, as, rfl⟩
  have hb : b ≠ '/' := (hrc b (List.mem_cons_self b r')).1
  have h1 : httpsPre.isPrefixOf (o ++ '/' :: (b :: r') ++ z₁) = false := by
    have hd : httpsPre = "https:".toList ++ '/' :: '/' :: "github.com/".toList := by decide
    rw [hd]
    have hns := noSchemePrefixMatch "https:".toList o "github.com/".toList b (r' ++ z₁)
      (by decide) (fun c hc => (hoc c hc).1) hb
    simpa using hns
  have h2 : httpPre.isPrefixOf (o ++ '/' :: (b :: r') ++ z₁) = false := by
    have hd : httpPre = "http:".toList ++ '/' :: '/' :: "github.com/".toList := by decide
    rw [hd]
    have hns := noSchemePrefixMatch "http:".toList o "github.com/".toList b (r' ++ z₁)
      (by decide) (fun c hc => (hoc c hc).1) hb
    simpa using hns
  obtain ⟨oc, o', rfl⟩ : ∃ oc o', o = oc :: o' := by
    cases o with
    | nil => exact absurd rfl ho
    | cons a as => exact ⟨a, as, rfl⟩
  simp only [parseCore]
  rw [show (String.mk ((oc :: o') ++ '/' :: (b :: r') ++ w)).toList =
    (oc :: o') ++ '/' :: (b :: r') ++ w from rfl]
  rw [hs]
  rw [if_neg (by simp)]
  rw [h1, h2]
  simp only [Bool.or_self, Bool.false_eq_true, if_false]
  rw [hss, hsp]
  simp

/-- C3 counterexample: the claim quantifies over every input on which
parse succeeds.  The input `acme/widgets` followed by a tab succeeds with
`("acme", "widgets")` (the trailing tab is trimmed), but appending the
trailing segments `/tree/main` makes the tab interior, so the result
changes to `("acme", "widgets\t")`: appending trailing segments to an
input on which parse succeeds can change the returned pair. -/
theorem c3_counterexample :
    parse_github_url "acme/widgets\t" = .ok ("acme", "widgets") ∧
    parse_github_url "acme/widgets\t/tree/main" = .ok ("acme", "widgets\t") ∧
    (("acme", "widgets\t") : String × String) ≠ ("acme", "widgets") :=
  ⟨rfl, rfl, by decide⟩

/-- C3 (amended): for identifiers of the shape `owner/repo` whose two
components are non-empty and contain no slash and no whitespace, parse
succeeds with exactly that pair, and appending `/`-separated trailing
segments (an arbitrary suffix after one more `/`, e.g. `/tree/main`)
does not cause an error and yields the same (owner, repo) pair: only the
first two path segments determine the result. -/
theorem c3_trailing_segments_ignored (o r t : String) (ho : o ≠ "") (hr : r ≠ "")
    (hoc : ∀ c ∈ o.toList, c ≠ '/' ∧ pyIsSpace c = false)
    (hrc : ∀ c ∈ r.toList, c ≠ '/' ∧ pyIsSpace c = false) :
    parse_github_url (o ++ "/" ++ r) = .ok (o, r) ∧
    parse_github_url (o ++ "/" ++ r ++ "/" ++ t) = .ok (o, r) := by
  have ho' : o.toList ≠ [] := fun hc => ho (String.ext hc)
  have hr' : r.toList ≠ [] := fun hc => hr (String.ext hc)
  constructor
  · have hmain := parseCore_segments o.toList r.toList [] ho' hr' hoc hrc (Or.inl rfl)
    rw [parse_eq_ok_iff]
    have heq : o ++ "/" ++ r = String.mk (o.toList ++ '/' :: r.toList ++ []) := by
      apply String.ext
      show (o ++ "/" ++ r).data = o.data ++ '/' :: r.data ++ []
      rw [String.data_append, String.data_append]
      simp [show ("/" : String).data = ['/'] from rfl]
    rw [heq, hmain]
    rfl
  · have hmain := parseCore_segments o.toList r.toList ('/' :: t.toList) ho' hr' hoc hrc
      (Or.inr ⟨_, rfl⟩)
    rw [parse_eq_ok_iff]
    have heq : o ++ "/" ++ r ++ "/" ++ t =
        String.mk (o.toList ++ '/' :: r.toList ++ '/' :: t.toList) := by
      apply String.ext
      show (o ++ "/" ++ r ++ "/" ++ t).data = o.data ++ '/' :: r.data ++ '/' :: t.data
      rw [String.data_append, String.data_append, String.data_append, String.data_append]
      simp [show ("/" : String).data = ['/'] from rfl]
    rw [heq, hmain]
    rfl

/-- C3 witness: appending `/tree/main` to `acme/widgets` yields the same
pair as parsing `acme/widgets` alone. -/
theorem c3_witness :
    parse_github_url ("acme" ++ "/" ++ "widgets") = .ok ("acme", "widgets") ∧
    parse_github_url ("acme" ++ "/" ++ "widgets" ++ "/" ++ "tree/main") =
      .ok ("acme", "widgets") :=
  c3_trailing_segments_ignored "acme" "widgets" "tree/main" (by decide) (by decide)
    (by decide) (by decide)
